import Mathlib

/-!
Verification development for the rust-phash-hasher repository (src/src/main.rs).

The program computes 64-bit perceptual hashes for a list of image paths and
persists them to a line-oriented checkpoint file.  This file gives a shallow
embedding of the checkpoint protocol (read_result, the collector thread), the
pipeline work-set computation, and the DCT based hash bitization, and proves
the frozen claims about them.

Modelling conventions:
- The checkpoint file content is a `List Char` (the file is UTF-8 text; the
  one claim about non-UTF-8 paths is modelled separately at byte level,
  `List Nat`, since `PathBuf` holds raw OS bytes there).
- Rust `u64` values are `Nat` with explicit `< 2 ^ 64` bounds where the code
  relies on the width (`str::parse::<u64>` rejects larger values).
- `f32` matrices are modelled over an ordered field: the bitization claims are
  stated over `ℚ` (exact, executable) and the DCT basis formula over `ℝ`.
-/

namespace PhashHasher

/-! ## Checkpoint file model: lines

`read_result` (main.rs lines 100-144) reads the file with
`BufReader::read_line`, which yields the content up to and including the next
newline byte, or the remaining bytes at end of file. -/

/-- Model of one `BufRead::read_line` call: returns the first line (including
its terminating newline character, when present) and the remaining content. -/
def read_line : List Char → List Char × List Char
  | [] => ([], [])
  | c :: rest =>
    if c = '\n' then ([c], rest)
    else
      let p := read_line rest
      (c :: p.1, p.2)

/-- Rust `str::trim`, restricted to the whitespace characters that can occur
in this format (`Char.isWhitespace` covers space, tab, carriage return and
newline; the claims never involve other Unicode whitespace). -/
def rustTrim (l : List Char) : List Char :=
  ((l.dropWhile Char.isWhitespace).reverse.dropWhile Char.isWhitespace).reverse

/-- Rust `str::split('\t')` on the characters of a line: splits on every tab,
keeping empty fields, and yields one (possibly empty) field when no tab
occurs. -/
def splitOnTab : List Char → List (List Char)
  | [] => [[]]
  | c :: rest =>
    match splitOnTab rest with
    | [] => [[c]]
    | g :: gs => if c = '\t' then [] :: g :: gs else (c :: g) :: gs

/-- Leading sign handling of Rust `str::parse::<u64>`: one optional plus sign
is allowed before the digits. -/
def stripPlus (s : List Char) : List Char :=
  match s with
  | c :: rest => if c = '+' then rest else s
  | [] => s

/-- Rust `str::parse::<u64>`: an optional plus sign followed by a nonempty
run of ASCII digits, rejecting values that overflow 64 bits. -/
def parseU64 (s : List Char) : Option Nat :=
  let t := stripPlus s
  if t = [] then none
  else if t.all (fun c => c.isDigit) then
    let v := t.foldl (fun a c => 10 * a + (c.toNat - 48)) 0
    if v < 2 ^ 64 then some v else none
  else none

/-- One iteration of the `read_result` loop body (main.rs lines 116-135):
reject a line that does not end in a newline, split it on tabs and trim each
field, require exactly two fields, and parse the second as a `u64`. -/
def parse_line (line : List Char) : Option (List Char × Nat) :=
  if line.getLast? ≠ some '\n' then none
  else
    match (splitOnTab line).map rustTrim with
    | [p, hs] =>
      match parseU64 hs with
      | some h => some (p, h)
      | none => none
    | _ => none

/-- Fuel-indexed scan of the checkpoint file (the `loop` of `read_result`,
main.rs lines 109-137).  Returns the list of parsed entries of the valid
prefix in file order, together with the byte offset just after the last valid
line (the `valid_len` variable).  The fuel makes the recursion structural so
that concrete runs reduce inside the kernel; `scan` below supplies enough
fuel for the whole input. -/
def scanFuel : Nat → List Char → List (List Char × Nat) × Nat
  | 0, _ => ([], 0)
  | _ + 1, [] => ([], 0)
  | fuel + 1, c :: rest =>
    let lr := read_line (c :: rest)
    match parse_line lr.1 with
    | none => ([], 0)
    | some e =>
      let tail := scanFuel fuel lr.2
      (e :: tail.1, lr.1.length + tail.2)

/-- The scan of `read_result` over the whole file content. -/
def scan (s : List Char) : List (List Char × Nat) × Nat :=
  scanFuel (s.length + 1) s

/-- `HashMap::insert`: replaces any previous binding of the same key. -/
def insertKV (m : List (List Char × Nat)) (e : List Char × Nat) :
    List (List Char × Nat) :=
  m.filter (fun x => x.1 ≠ e.1) ++ [e]

/-- `HashMap::get`-style lookup in the association-list model of the cache. -/
def lookupKV (m : List (List Char × Nat)) (k : List Char) : Option Nat :=
  (m.find? (fun e => e.1 = k)).map (fun e => e.2)

/-- `read_result` (main.rs lines 100-144): the recovered cache (entries of the
valid prefix inserted in file order) and the file offset at which the caller
will keep appending (the final `seek` to `valid_len`). -/
def read_result (s : List Char) : List (List Char × Nat) × Nat :=
  ((scan s).1.foldl insertKV [], (scan s).2)

/-! ## Writer model

The collector thread (main.rs lines 51-64) receives `(path, phash)` pairs,
skips a path containing a tab or newline with a warning, and otherwise appends
one line `path TAB hash NEWLINE` and flushes. -/

/-- Little-endian base-10 digits, with explicit fuel so that the recursion is
structural and concrete values reduce inside the kernel.  `natDigits` below
supplies sufficient fuel and agrees with `Nat.digits 10`. -/
def toDigitsRev : Nat → Nat → List Nat
  | 0, _ => []
  | _ + 1, 0 => []
  | fuel + 1, m + 1 => (m + 1) % 10 :: toDigitsRev fuel ((m + 1) / 10)

/-- Little-endian base-10 digits of a number. -/
def natDigits (n : Nat) : List Nat := toDigitsRev n n

/-- Decimal rendering of a `u64` by `Display` (the `{}` format of `writeln!`),
via the base-10 digits of the number. -/
def natChars (n : Nat) : List Char :=
  if n = 0 then ['0'] else ((natDigits n).map Nat.digitChar).reverse

/-- The exact line written by `writeln!(output_file, "{}\t{}", path, phash)`. -/
def encodeLine (p : List Char) (h : Nat) : List Char :=
  p ++ '\t' :: (natChars h ++ ['\n'])

/-- Concatenation of the encoded lines of a list of entries. -/
def encodeEntries (es : List (List Char × Nat)) : List Char :=
  (es.map (fun e => encodeLine e.1 e.2)).flatten

/-- One iteration of the collector loop (main.rs lines 53-63) acting on the
file content: skip the entry when the path contains a tab or newline,
otherwise append its encoded line. -/
def collectorStep (file : List Char) (e : List Char × Nat) : List Char :=
  if '\t' ∈ e.1 ∨ '\n' ∈ e.1 then file else file ++ encodeLine e.1 e.2

/-- The collector thread draining the channel: it processes the received
entries in arrival order, one at a time. -/
def collectorRun (file : List Char) (es : List (List Char × Nat)) : List Char :=
  es.foldl collectorStep file

/-- An entry as produced by the pipeline and accepted by the checkpoint
format: the path holds no delimiter character, is unchanged by trimming
(candidate paths are trimmed by `read_input_list`, main.rs lines 84-94), and
the hash fits in 64 bits. -/
def wellFormedEntry (e : List Char × Nat) : Prop :=
  '\t' ∉ e.1 ∧ '\n' ∉ e.1 ∧ rustTrim e.1 = e.1 ∧ e.2 < 2 ^ 64

instance (e : List Char × Nat) : Decidable (wellFormedEntry e) := by
  unfold wellFormedEntry; infer_instance

/-! ## Pipeline model

`main` (main.rs lines 31-81) recovers the cache, filters the candidate list
against it, collects the remainder into a `HashSet` (set semantics), hashes
each work item in parallel, and sends successes to the collector.  The hash
computation on the file system is modelled by an oracle
`hashFn : List Char → Option Nat` (`None` is a per-item failure of
`image_path_to_phash`).  `HashSet` iteration order is arbitrary; `List.dedup`
is the deterministic stand-in, which is faithful for every set-level
conclusion proved below. -/

/-- The work set of a run (main.rs line 45): candidate paths not already in
the recovered cache, with duplicates collapsed. -/
def workOf (cands : List (List Char)) (file : List Char) : List (List Char) :=
  (cands.filter (fun p => lookupKV (read_result file).1 p = none)).dedup

/-- Paths of the run on which the hash engine is invoked and produces a hash
(main.rs lines 68-78: every work item is attempted; these succeed). -/
def hashedPaths (hashFn : List Char → Option Nat) (cands : List (List Char))
    (file : List Char) : List (List Char) :=
  (workOf cands file).filter (fun p => (hashFn p).isSome)

/-- The `(path, phash)` pairs sent to the collector channel, in work order. -/
def pipelineResults (hashFn : List Char → Option Nat)
    (cands : List (List Char)) (file : List Char) : List (List Char × Nat) :=
  (workOf cands file).filterMap (fun p => (hashFn p).map (fun h => (p, h)))

/-- Work items whose hash computation fails; each is reported to stderr with
its path (main.rs lines 71-74) and produces nothing else. -/
def pipelineErrors (hashFn : List Char → Option Nat)
    (cands : List (List Char)) (file : List Char) : List (List Char) :=
  (workOf cands file).filter (fun p => hashFn p = none)

/-- One whole run: load the cache (leaving the write cursor at the valid
length, so later appends overwrite any trailing garbage), then let the
collector append the successful results. -/
def pipelineRun (hashFn : List Char → Option Nat)
    (cands : List (List Char)) (file : List Char) : List Char :=
  collectorRun (file.take (read_result file).2)
    (pipelineResults hashFn cands file)

/-! ## Byte-level collector model

`PathBuf` holds raw OS bytes; `path.to_str().unwrap()` (main.rs line 54)
checks UTF-8 validity and panics on failure, which propagates through
`collector_thread.join().unwrap()` (line 80) and aborts the run.  This model
keeps paths as byte lists. -/

/-- A UTF-8 continuation byte. -/
def contB (b : Nat) : Bool := 0x80 ≤ b && b ≤ 0xBF

/-- UTF-8 validity of a byte sequence (RFC 3629 table, as enforced by Rust
`str::from_utf8` underlying `Path::to_str`). -/
def validUtf8 : List Nat → Bool
  | [] => true
  | b :: rest =>
    if b ≤ 0x7F then validUtf8 rest
    else if 0xC2 ≤ b ∧ b ≤ 0xDF then
      match rest with
      | b2 :: r => contB b2 && validUtf8 r
      | [] => false
    else if b = 0xE0 then
      match rest with
      | b2 :: b3 :: r => (0xA0 ≤ b2 && b2 ≤ 0xBF) && contB b3 && validUtf8 r
      | _ => false
    else if 0xE1 ≤ b ∧ b ≤ 0xEC then
      match rest with
      | b2 :: b3 :: r => contB b2 && contB b3 && validUtf8 r
      | _ => false
    else if b = 0xED then
      match rest with
      | b2 :: b3 :: r => (0x80 ≤ b2 && b2 ≤ 0x9F) && contB b3 && validUtf8 r
      | _ => false
    else if 0xEE ≤ b ∧ b ≤ 0xEF then
      match rest with
      | b2 :: b3 :: r => contB b2 && contB b3 && validUtf8 r
      | _ => false
    else if b = 0xF0 then
      match rest with
      | b2 :: b3 :: b4 :: r =>
        (0x90 ≤ b2 && b2 ≤ 0xBF) && contB b3 && contB b4 && validUtf8 r
      | _ => false
    else if 0xF1 ≤ b ∧ b ≤ 0xF3 then
      match rest with
      | b2 :: b3 :: b4 :: r => contB b2 && contB b3 && contB b4 && validUtf8 r
      | _ => false
    else if b = 0xF4 then
      match rest with
      | b2 :: b3 :: b4 :: r =>
        (0x80 ≤ b2 && b2 ≤ 0x8F) && contB b3 && contB b4 && validUtf8 r
      | _ => false
    else false

/-- The bytes of the line written for one entry. -/
def byteLine (p : List Nat) (h : Nat) : List Nat :=
  p ++ 9 :: ((natChars h).map Char.toNat ++ [10])

/-- One collector iteration at byte level: `to_str().unwrap()` first (a
`none` result is the panic), then the delimiter check, then the append. -/
def collectorStepB (file : List Nat) (e : List Nat × Nat) : Option (List Nat) :=
  if ¬ validUtf8 e.1 then none
  else if 9 ∈ e.1 ∨ 10 ∈ e.1 then some file
  else some (file ++ byteLine e.1 e.2)

/-- The collector loop at byte level; a panic aborts the whole run, so no
later entry is processed. -/
def collectorRunB (file : List Nat) : List (List Nat × Nat) → Option (List Nat)
  | [] => some file
  | e :: es =>
    match collectorStepB file e with
    | none => none
    | some f2 => collectorRunB f2 es

/-! ## Hash engine model

`image_path_to_phash` (main.rs lines 148-191): after the external decoder
produces a 32x32 grayscale matrix, the code computes
`dct_matrix * img * dct_matrix_t`, takes the 8x8 view at row 1, column 1,
flattens it (nalgebra iterates a view in column-major order), sorts the 64
values ascending, takes the median as the mean of the two middle elements,
and sets bit `i` when value `i` of the flattened order is at least the
median.  The bitization is stated over any linear ordered field; claims use
`ℚ` (exact, executable stand-in for `f32`) and `ℝ` (for the cosine basis). -/

/-- The 64 coefficients of the 8x8 view at (1, 1), flattened in nalgebra
iteration order (column-major: `dct_vals.fixed_view::<8, 8>(1, 1).iter()`,
main.rs lines 169-172). -/
def flattenBlock {α : Type} (d : Matrix (Fin 32) (Fin 32) α) : List α :=
  (List.finRange 8).flatMap fun x =>
    (List.finRange 8).map fun y =>
      d (Fin.castLE (by omega) y.succ) (Fin.castLE (by omega) x.succ)

/-- The ascending stable sort of the coefficients
(`sorted.sort_by(|a, b| a.partial_cmp(b).unwrap())`, main.rs line 176). -/
def sortedVals {α : Type} [LinearOrder α] (vals : List α) : List α :=
  vals.mergeSort (fun a b => decide (a ≤ b))

/-- The 0/1 list of `if *v >= median { 1 } else { 0 }` (main.rs line 180),
with the median of line 177. -/
def phashBits {α : Type} [LinearOrderedField α]
    (d : Matrix (Fin 32) (Fin 32) α) : List Nat :=
  let vals := flattenBlock d
  let sorted := sortedVals vals
  let median := (sorted.getD 31 0 + sorted.getD 32 0) / 2
  vals.map (fun v => if v ≥ median then 1 else 0)

/-- The bit-packing loop of main.rs lines 183-188: set bit `i` of the hash
for every index with bit value 1. -/
def bitsToU64 (bits : List Nat) : Nat :=
  bits.enum.foldl
    (fun hash iv => if iv.2 = 1 then hash ||| (1 <<< iv.1) else hash) 0

/-- The hash of a decoded, resized 32x32 matrix of DCT input, from the DCT
output matrix to the final `u64`. -/
def phashCore {α : Type} [LinearOrderedField α]
    (d : Matrix (Fin 32) (Fin 32) α) : Nat :=
  bitsToU64 (phashBits d)

/-! ## DCT basis (main.rs lines 195-204) -/

/-- `get_dct_matrix(32)`: row 0 is the constant `1/sqrt(32)`; row `y` holds
`c1 * cos((pi/2/32) * y * (2*x+1))` with `c1 = sqrt(2/32)`. -/
noncomputable def get_dct_matrix : Matrix (Fin 32) (Fin 32) ℝ :=
  Matrix.of fun y x =>
    if (y : ℕ) = 0 then 1 / Real.sqrt 32
    else
      Real.sqrt (2 / 32) *
        Real.cos ((Real.pi / 2 / 32) * ((y : ℕ) : ℝ) *
          (((2 * (x : ℕ) + 1 : ℕ)) : ℝ))

/-- `dct_matrix.transpose()` (main.rs line 35), computed once at startup. -/
noncomputable def dct_matrix_t : Matrix (Fin 32) (Fin 32) ℝ :=
  get_dct_matrix.transpose

/-- The 2-D transform of main.rs line 166: `dct_matrix * img * dct_matrix_t`. -/
noncomputable def dct_transform (pixels : Matrix (Fin 32) (Fin 32) ℝ) :
    Matrix (Fin 32) (Fin 32) ℝ :=
  get_dct_matrix * pixels * dct_matrix_t

/-- The hash as a function of the decoded, grayscaled, resized 32x32 pixel
matrix (main.rs lines 163-190); grayscale conversion and Lanczos resampling
are external collaborators applied before this point. -/
noncomputable def phashOfPixels (pixels : Matrix (Fin 32) (Fin 32) ℝ) : Nat :=
  phashCore (dct_transform pixels)

/-! ## Lemmas about `read_line` -/

theorem read_line_append (s : List Char) :
    (read_line s).1 ++ (read_line s).2 = s := by
  induction s with
  | nil => rfl
  | cons c rest ih =>
    by_cases hc : c = '\n'
    · simp [read_line, hc]
    · simp only [read_line, if_neg hc, List.cons_append, List.cons.injEq,
        true_and]
      exact ih

theorem read_line_fst_ne_nil {s : List Char} (hs : s ≠ []) :
    (read_line s).1 ≠ [] := by
  cases s with
  | nil => exact absurd rfl hs
  | cons c rest =>
    by_cases hc : c = '\n' <;> simp [read_line, hc]

theorem read_line_snd_length {s : List Char} (hs : s ≠ []) :
    (read_line s).2.length < s.length := by
  have h1 : (read_line s).1.length + (read_line s).2.length = s.length := by
    rw [← List.length_append, read_line_append]
  have h2 : 0 < (read_line s).1.length :=
    List.length_pos.mpr (read_line_fst_ne_nil hs)
  omega

theorem read_line_dropLast_ne_nl (s : List Char) :
    ∀ c ∈ (read_line s).1.dropLast, c ≠ '\n' := by
  induction s with
  | nil => intro c hc; simp [read_line] at hc
  | cons a rest ih =>
    intro c hc
    by_cases ha : a = '\n'
    · simp [read_line, ha] at hc
    · simp only [read_line, if_neg ha] at hc
      rcases hl : (read_line rest).1 with _ | ⟨b, bs⟩
      · rw [hl] at hc; simp at hc
      · rw [hl] at hc
        rw [List.dropLast_cons_of_ne_nil (by simp)] at hc
        rcases List.mem_cons.mp hc with h | h
        · subst h; exact ha
        · exact ih c (by rw [hl]; exact h)

theorem read_line_of_clean {p : List Char} (hp : ∀ c ∈ p, c ≠ '\n')
    (t : List Char) : read_line (p ++ '\n' :: t) = (p ++ ['\n'], t) := by
  induction p with
  | nil => simp [read_line]
  | cons c cs ih =>
    have hc : c ≠ '\n' := hp c (List.mem_cons_self c cs)
    have ihs : ∀ x ∈ cs, x ≠ '\n' := fun x hx => hp x (List.mem_cons_of_mem c hx)
    simp only [List.cons_append, read_line, if_neg hc]
    rw [show cs.append ('\n' :: t) = cs ++ '\n' :: t from rfl, ih ihs]

/-- A line accepted by `parse_line` ends with a newline. -/
theorem parse_line_getLast {l : List Char} {e : List Char × Nat}
    (h : parse_line l = some e) : l.getLast? = some '\n' := by
  by_contra hne
  simp [parse_line, hne] at h

/-- Reading from a buffer that starts with a previously accepted line yields
exactly that line again. -/
theorem read_line_restart {s l r : List Char}
    (hlr : read_line s = (l, r)) {e : List Char × Nat}
    (hp : parse_line l = some e) (t : List Char) :
    read_line (l ++ t) = (l, t) := by
  have hlast : l.getLast? = some '\n' := parse_line_getLast hp
  have hnn : l ≠ [] := by
    intro h; rw [h] at hlast; simp at hlast
  have hdecomp : l.dropLast ++ [l.getLast hnn] = l :=
    List.dropLast_append_getLast hnn
  have hlastv : l.getLast hnn = '\n' := by
    have := List.getLast?_eq_getLast l hnn
    rw [this] at hlast
    exact Option.some_injective _ hlast
  have hmid : ∀ c ∈ l.dropLast, c ≠ '\n' := by
    intro c hc
    have : (read_line s).1 = l := by rw [hlr]
    exact read_line_dropLast_ne_nl s c (by rw [this]; exact hc)
  calc read_line (l ++ t)
      = read_line (l.dropLast ++ '\n' :: t) := by
        rw [← hdecomp, hlastv]; simp
    _ = (l.dropLast ++ ['\n'], t) := read_line_of_clean hmid t
    _ = (l, t) := by rw [← hlastv, hdecomp]

/-! ## Unfolding equations for `scan` -/

theorem scanFuel_congr :
    ∀ (f1 : Nat) (f2 : Nat) (s : List Char), s.length < f1 → s.length < f2 →
      scanFuel f1 s = scanFuel f2 s := by
  intro f1
  induction f1 with
  | zero => intro f2 s h1 _; omega
  | succ f1 ih =>
    intro f2 s h1 h2
    cases f2 with
    | zero => omega
    | succ f2 =>
      cases s with
      | nil => rfl
      | cons c rest =>
        simp only [scanFuel]
        rcases hp : parse_line (read_line (c :: rest)).1 with _ | e
        · rfl
        · have hlen : (read_line (c :: rest)).2.length < (c :: rest).length :=
            read_line_snd_length (by simp)
          rw [ih f2 (read_line (c :: rest)).2 (by omega) (by omega)]

theorem scan_nil : scan [] = ([], 0) := rfl

theorem scan_stop {s : List Char} (hs : s ≠ [])
    (hp : parse_line (read_line s).1 = none) : scan s = ([], 0) := by
  cases s with
  | nil => exact absurd rfl hs
  | cons c rest => simp [scan, scanFuel, hp]

theorem scan_cons {s : List Char} (hs : s ≠ []) {e : List Char × Nat}
    (hp : parse_line (read_line s).1 = some e) :
    scan s = (e :: (scan (read_line s).2).1,
      (read_line s).1.length + (scan (read_line s).2).2) := by
  cases s with
  | nil => exact absurd rfl hs
  | cons c rest =>
    have hlen : (read_line (c :: rest)).2.length < (c :: rest).length :=
      read_line_snd_length (by simp)
    simp only [scan, List.length_cons, scanFuel, hp]
    rw [scanFuel_congr (rest.length + 1) ((read_line (c :: rest)).2.length + 1)
      (read_line (c :: rest)).2 (by simpa using hlen) (by omega)]

/-- The valid length never exceeds the file length. -/
theorem scan_snd_le (s : List Char) : (scan s).2 ≤ s.length := by
  have H : ∀ k s, List.length s ≤ k → (scan s).2 ≤ s.length := by
    intro k
    induction k with
    | zero =>
      intro s hs
      have : s = [] := List.length_eq_zero.mp (Nat.le_zero.mp hs)
      simp [this, scan_nil]
    | succ k ih =>
      intro s hs
      rcases List.eq_nil_or_concat s with h | _
      · simp [h, scan_nil]
      · by_cases hnil : s = []
        · simp [hnil, scan_nil]
        · rcases hp : parse_line (read_line s).1 with _ | e
          · rw [scan_stop hnil hp]; simp
          · rw [scan_cons hnil hp]
            have h1 : (read_line s).1.length + (read_line s).2.length
                = s.length := by
              rw [← List.length_append, read_line_append]
            have h2 := read_line_snd_length hnil
            have h3 := ih (read_line s).2 (by omega)
            simp only
            omega
  exact H s.length s le_rfl

/-! ## Decimal rendering round-trips through parsing -/

theorem digitChar_toNat {d : Nat} (hd : d < 10) :
    (Nat.digitChar d).toNat - 48 = d := by
  interval_cases d <;> decide

theorem digitChar_isDigit {d : Nat} (hd : d < 10) :
    (Nat.digitChar d).isDigit = true := by
  interval_cases d <;> decide

theorem digitChar_ne_tab {d : Nat} (hd : d < 10) : Nat.digitChar d ≠ '\t' := by
  interval_cases d <;> decide

theorem digitChar_ne_nl {d : Nat} (hd : d < 10) : Nat.digitChar d ≠ '\n' := by
  interval_cases d <;> decide

theorem digitChar_ne_plus {d : Nat} (hd : d < 10) : Nat.digitChar d ≠ '+' := by
  interval_cases d <;> decide

theorem digitChar_not_ws {d : Nat} (hd : d < 10) :
    (Nat.digitChar d).isWhitespace = false := by
  interval_cases d <;> decide

theorem toDigitsRev_eq :
    ∀ (fuel n : Nat), n ≤ fuel → toDigitsRev fuel n = Nat.digits 10 n := by
  intro fuel
  induction fuel with
  | zero =>
    intro n hn
    have : n = 0 := by omega
    subst this
    simp [toDigitsRev]
  | succ fuel ih =>
    intro n hn
    match n with
    | 0 => simp [toDigitsRev]
    | m + 1 =>
      have hdiv : (m + 1) / 10 < m + 1 :=
        Nat.div_lt_self (by omega) (by omega)
      have hd := Nat.digits_def' (show (1 : ℕ) < 10 by omega)
        (show 0 < m + 1 by omega)
      rw [toDigitsRev, ih ((m + 1) / 10) (by omega), ← hd]

theorem natDigits_eq (n : Nat) : natDigits n = Nat.digits 10 n :=
  toDigitsRev_eq n n le_rfl

theorem natChars_ne_nil (n : Nat) : natChars n ≠ [] := by
  unfold natChars
  by_cases h : n = 0
  · simp [h]
  · simp only [if_neg h, ne_eq, List.reverse_eq_nil_iff, List.map_eq_nil_iff,
      natDigits_eq]
    exact Nat.digits_ne_nil_iff_ne_zero.mpr h

theorem natChars_mem_digit {n : Nat} :
    ∀ c ∈ natChars n, ∃ d, d < 10 ∧ c = Nat.digitChar d := by
  intro c hc
  unfold natChars at hc
  by_cases h : n = 0
  · rw [if_pos h] at hc
    simp at hc
    exact ⟨0, by omega, by simp [hc]; rfl⟩
  · rw [if_neg h, natDigits_eq] at hc
    rw [List.mem_reverse, List.mem_map] at hc
    obtain ⟨d, hdmem, hdc⟩ := hc
    exact ⟨d, Nat.digits_lt_base (by omega) hdmem, hdc.symm⟩

theorem natChars_all_isDigit (n : Nat) :
    ∀ c ∈ natChars n, c.isDigit = true := by
  intro c hc
  obtain ⟨d, hd, rfl⟩ := natChars_mem_digit c hc
  exact digitChar_isDigit hd

/-- Folding the character-level parser over a reversed digit list computes the
number the digits denote. -/
theorem foldl_digitChars (ds : List Nat) (hds : ∀ d ∈ ds, d < 10) (a : Nat) :
    ((ds.map Nat.digitChar).reverse).foldl
      (fun a c => 10 * a + (c.toNat - 48)) a
      = a * 10 ^ ds.length + Nat.ofDigits 10 ds := by
  induction ds generalizing a with
  | nil => simp
  | cons d tl ih =>
    have hd : d < 10 := hds d (List.mem_cons_self d tl)
    have htl : ∀ x ∈ tl, x < 10 := fun x hx => hds x (List.mem_cons_of_mem d hx)
    simp only [List.map_cons, List.reverse_cons, List.foldl_append,
      List.foldl_cons, List.foldl_nil, ih htl]
    rw [digitChar_toNat hd, Nat.ofDigits_cons]
    simp only [List.length_cons, pow_succ]
    ring

theorem parseU64_natChars {n : Nat} (hn : n < 2 ^ 64) :
    parseU64 (natChars n) = some n := by
  by_cases h0 : n = 0
  · subst h0; decide
  · have hne : natChars n ≠ [] := natChars_ne_nil n
    have hdig : ∀ c ∈ natChars n, c.isDigit = true := natChars_all_isDigit n
    have hstrip : stripPlus (natChars n) = natChars n := by
      rcases hnc : natChars n with _ | ⟨c, cs⟩
      · exact absurd hnc hne
      · have hcmem : c ∈ natChars n := by rw [hnc]; exact List.mem_cons_self c cs
        obtain ⟨d, hd, rfl⟩ := natChars_mem_digit c hcmem
        simpa [stripPlus, hnc] using fun heq => digitChar_ne_plus hd heq
    have hfold : (natChars n).foldl (fun a c => 10 * a + (c.toNat - 48)) 0
        = n := by
      unfold natChars
      rw [if_neg h0, natDigits_eq]
      rw [foldl_digitChars (Nat.digits 10 n)
        (fun d hd => Nat.digits_lt_base (by omega) hd) 0]
      simp [Nat.ofDigits_digits]
    unfold parseU64
    rw [hstrip]
    rw [if_neg hne]
    rw [if_pos (List.all_eq_true.mpr hdig)]
    simp only [hfold, if_pos hn]

/-! ## Trimming and splitting of an encoded line -/

theorem dropWhile_not_ws {l : List Char}
    (hl : ∀ c ∈ l, c.isWhitespace = false) :
    l.dropWhile Char.isWhitespace = l := by
  cases l with
  | nil => rfl
  | cons c cs =>
    rw [List.dropWhile_cons_of_neg]
    simp [hl c (List.mem_cons_self c cs)]

theorem rustTrim_of_not_ws {l : List Char}
    (hl : ∀ c ∈ l, c.isWhitespace = false) : rustTrim l = l := by
  unfold rustTrim
  rw [dropWhile_not_ws hl]
  rw [dropWhile_not_ws (by intro c hc; exact hl c (List.mem_reverse.mp hc))]
  exact List.reverse_reverse l

/-- Trimming the second field of an encoded line removes exactly the trailing
newline. -/
theorem rustTrim_digits_nl (n : Nat) :
    rustTrim (natChars n ++ ['\n']) = natChars n := by
  have hdig : ∀ c ∈ natChars n, c.isWhitespace = false := by
    intro c hc
    obtain ⟨d, hd, rfl⟩ := natChars_mem_digit c hc
    exact digitChar_not_ws hd
  unfold rustTrim
  have h1 : (natChars n ++ ['\n']).dropWhile Char.isWhitespace
      = natChars n ++ ['\n'] := by
    rcases hnc : natChars n with _ | ⟨c, cs⟩
    · exact absurd hnc (natChars_ne_nil n)
    · rw [List.cons_append, List.dropWhile_cons_of_neg]
      simp [hdig c (by rw [hnc]; exact List.mem_cons_self c cs)]
  rw [h1, List.reverse_append]
  simp only [List.reverse_cons, List.reverse_nil, List.nil_append,
    List.singleton_append]
  rw [List.dropWhile_cons_of_pos (by decide)]
  rw [dropWhile_not_ws (by intro c hc; exact hdig c (List.mem_reverse.mp hc))]
  exact List.reverse_reverse (natChars n)

theorem splitOnTab_no_tab {l : List Char} (hl : '\t' ∉ l) :
    splitOnTab l = [l] := by
  induction l with
  | nil => rfl
  | cons c cs ih =>
    have hc : c ≠ '\t' := fun h => hl (h ▸ List.mem_cons_self c cs)
    have hcs : '\t' ∉ cs := fun h => hl (List.mem_cons_of_mem c h)
    simp only [splitOnTab, ih hcs, if_neg hc]

theorem splitOnTab_ne_nil (l : List Char) : splitOnTab l ≠ [] := by
  cases l with
  | nil => simp [splitOnTab]
  | cons c cs =>
    simp only [splitOnTab]
    rcases h : splitOnTab cs with _ | ⟨g, gs⟩
    · simp
    · by_cases hc : c = '\t' <;> simp [hc]

theorem splitOnTab_append {p rest : List Char} (hp : '\t' ∉ p) :
    splitOnTab (p ++ '\t' :: rest) = p :: splitOnTab rest := by
  induction p with
  | nil =>
    simp only [List.nil_append, splitOnTab]
    rcases h : splitOnTab rest with _ | ⟨g, gs⟩
    · exact absurd h (splitOnTab_ne_nil rest)
    · simp
  | cons c cs ih =>
    have hc : c ≠ '\t' := fun h => hp (h ▸ List.mem_cons_self c cs)
    have hcs : '\t' ∉ cs := fun h => hp (List.mem_cons_of_mem c h)
    simp only [List.cons_append, splitOnTab]
    rw [show cs.append ('\t' :: rest) = cs ++ '\t' :: rest from rfl, ih hcs]
    simp [hc]

/-- The line written for a wellformed entry parses back to exactly that
entry. -/
theorem parse_line_encodeLine {p : List Char} {h : Nat}
    (he : wellFormedEntry (p, h)) :
    parse_line (encodeLine p h) = some (p, h) := by
  obtain ⟨htab, hnl, htrim, hlt⟩ := he
  have hlast : (encodeLine p h).getLast? = some '\n' := by
    unfold encodeLine
    rw [show p ++ '\t' :: (natChars h ++ ['\n'])
      = (p ++ '\t' :: natChars h) ++ ['\n'] by simp]
    exact List.getLast?_concat _
  have hsplit : splitOnTab (encodeLine p h) = [p, natChars h ++ ['\n']] := by
    unfold encodeLine
    rw [splitOnTab_append htab, splitOnTab_no_tab]
    intro hmem
    rcases List.mem_append.mp hmem with hmem | hmem
    · obtain ⟨d, hd, heq⟩ := natChars_mem_digit _ hmem
      exact digitChar_ne_tab hd heq.symm
    · simp at hmem
  unfold parse_line
  rw [if_neg (by simp [hlast])]
  rw [hsplit]
  simp only [List.map_cons, List.map_nil, htrim, rustTrim_digits_nl,
    parseU64_natChars hlt]

/-- Reading from a buffer that starts with an encoded wellformed line yields
exactly that line. -/
theorem read_line_encodeLine {p : List Char} {h : Nat}
    (he : wellFormedEntry (p, h)) (t : List Char) :
    read_line (encodeLine p h ++ t) = (encodeLine p h, t) := by
  obtain ⟨htab, hnl, _, _⟩ := he
  have hclean : ∀ c ∈ p ++ '\t' :: natChars h, c ≠ '\n' := by
    intro c hc
    rcases List.mem_append.mp hc with hc | hc
    · exact fun heq => hnl (heq ▸ hc)
    · rcases List.mem_cons.mp hc with hc | hc
      · subst hc; decide
      · obtain ⟨d, hd, rfl⟩ := natChars_mem_digit c hc
        exact digitChar_ne_nl hd
  have : encodeLine p h ++ t = (p ++ '\t' :: natChars h) ++ '\n' :: t := by
    unfold encodeLine; simp
  rw [this, read_line_of_clean hclean]
  unfold encodeLine
  simp

/-! ## Scanning composed files -/

theorem encodeEntries_nil : encodeEntries [] = [] := rfl

theorem encodeEntries_cons (e : List Char × Nat) (es : List (List Char × Nat)) :
    encodeEntries (e :: es) = encodeLine e.1 e.2 ++ encodeEntries es := by
  unfold encodeEntries
  simp

theorem encodeLine_ne_nil (p : List Char) (h : Nat) : encodeLine p h ≠ [] := by
  unfold encodeLine
  simp

/-- Scanning a sequence of wellformed encoded lines followed by anything
recovers exactly those entries and then proceeds to scan the remainder. -/
theorem scan_encode_append {es : List (List Char × Nat)}
    (hes : ∀ e ∈ es, wellFormedEntry e) (t : List Char) :
    scan (encodeEntries es ++ t)
      = (es ++ (scan t).1, (encodeEntries es).length + (scan t).2) := by
  induction es with
  | nil => simp [encodeEntries_nil]
  | cons e rest ih =>
    have he : wellFormedEntry e := hes e (List.mem_cons_self e rest)
    have hrest : ∀ x ∈ rest, wellFormedEntry x :=
      fun x hx => hes x (List.mem_cons_of_mem e hx)
    have hassoc : encodeEntries (e :: rest) ++ t
        = encodeLine e.1 e.2 ++ (encodeEntries rest ++ t) := by
      rw [encodeEntries_cons, List.append_assoc]
    have hread : read_line (encodeEntries (e :: rest) ++ t)
        = (encodeLine e.1 e.2, encodeEntries rest ++ t) := by
      rw [hassoc]; exact read_line_encodeLine he _
    have hparse : parse_line (read_line (encodeEntries (e :: rest) ++ t)).1
        = some e := by
      rw [hread]
      simpa using parse_line_encodeLine he
    have hne : encodeEntries (e :: rest) ++ t ≠ [] := by
      rw [hassoc]
      simp [encodeLine_ne_nil e.1 e.2]
    rw [scan_cons hne hparse, hread]
    simp only [ih hrest, encodeEntries_cons, List.length_append, Prod.mk.injEq]
    exact ⟨by simp, by omega⟩

/-- A tail whose first line is rejected contributes nothing to the scan. -/
theorem scan_of_bad_first {g : List Char}
    (hg : parse_line (read_line g).1 = none) : scan g = ([], 0) := by
  by_cases hne : g = []
  · simp [hne, scan_nil]
  · exact scan_stop hne hg

/-- Scanning the valid prefix of a file with any new tail appended first
recovers the same entries, then continues into the tail. -/
theorem scan_take_append :
    ∀ (s t : List Char),
      scan ((s.take (scan s).2) ++ t)
        = ((scan s).1 ++ (scan t).1, (scan s).2 + (scan t).2) := by
  have H : ∀ (k : Nat) (s t : List Char), s.length ≤ k →
      scan ((s.take (scan s).2) ++ t)
        = ((scan s).1 ++ (scan t).1, (scan s).2 + (scan t).2) := by
    intro k
    induction k with
    | zero =>
      intro s t hs
      have : s = [] := List.length_eq_zero.mp (Nat.le_zero.mp hs)
      simp [this, scan_nil]
    | succ k ih =>
      intro s t hs
      by_cases hnil : s = []
      · simp [hnil, scan_nil]
      · rcases hp : parse_line (read_line s).1 with _ | e
        · rw [scan_stop hnil hp]
          simp
        · obtain ⟨l, r, hlr⟩ : ∃ l r, read_line s = (l, r) :=
            ⟨(read_line s).1, (read_line s).2, rfl⟩
          have hpl : parse_line l = some e := by
            rw [hlr] at hp; exact hp
          have hsplit : l ++ r = s := by
            have := read_line_append s
            rw [hlr] at this; exact this
          have hrlen : r.length < s.length := by
            have := read_line_snd_length hnil
            rw [hlr] at this; exact this
          have hstep := scan_cons hnil hp
          rw [hlr] at hstep
          simp only at hstep
          have htake : s.take (scan s).2 = l ++ r.take (scan r).2 := by
            rw [hstep]
            simp only
            rw [← hsplit, List.take_append_eq_append_take]
            congr 1
            · exact List.take_of_length_le (by omega)
            · congr 1
              omega
          rw [htake, List.append_assoc]
          have hread2 : read_line (l ++ (r.take (scan r).2 ++ t))
              = (l, r.take (scan r).2 ++ t) :=
            read_line_restart hlr hpl _
          have hne2 : l ++ (r.take (scan r).2 ++ t) ≠ [] := by
            have : l ≠ [] := by
              have := read_line_fst_ne_nil hnil
              rw [hlr] at this; exact this
            simp [this]
          have hp2 : parse_line (read_line (l ++ (r.take (scan r).2 ++ t))).1
              = some e := by
            rw [hread2]; exact hpl
          rw [scan_cons hne2 hp2, hread2]
          simp only
          rw [ih r t (by omega), hstep]
          simp only [Prod.mk.injEq]
          exact ⟨by simp, by omega⟩
  exact fun s t => H s.length s t le_rfl

/-! ## Cache map lemmas -/

theorem find?_filter_of_imp {α : Type} {p q : α → Bool} (l : List α)
    (h : ∀ x, p x = true → q x = true) : (l.filter q).find? p = l.find? p := by
  induction l with
  | nil => rfl
  | cons a t ih =>
    by_cases hq : q a = true
    · rw [List.filter_cons_of_pos hq]
      by_cases hp : p a = true
      · rw [List.find?_cons_of_pos _ hp, List.find?_cons_of_pos _ hp]
      · rw [List.find?_cons_of_neg _ (by simp [hp]),
          List.find?_cons_of_neg _ (by simp [hp]), ih]
    · have hp : p a ≠ true := fun hpa => hq (h a hpa)
      rw [List.filter_cons_of_neg (by simp [hq]), ih,
        List.find?_cons_of_neg _ (by simp [hp])]

theorem lookupKV_insertKV (m : List (List Char × Nat)) (e : List Char × Nat)
    (k : List Char) :
    lookupKV (insertKV m e) k = if e.1 = k then some e.2 else lookupKV m k := by
  unfold lookupKV insertKV
  rw [List.find?_append]
  by_cases hk : e.1 = k
  · have hleft : (m.filter (fun x => x.1 ≠ e.1)).find? (fun x => x.1 = k)
        = none := by
      rw [List.find?_eq_none]
      intro x hx
      have := (List.mem_filter.mp hx).2
      simp only [ne_eq, decide_not, Bool.not_eq_eq_eq_not, Bool.not_true,
        decide_eq_false_iff_not] at this
      simp [hk ▸ this]
    rw [hleft]
    simp [List.find?, hk]
  · have hright : List.find? (fun x => x.1 = k) [e] = none := by
      simp [List.find?, hk]
    have hleft : (m.filter (fun x => x.1 ≠ e.1)).find? (fun x => x.1 = k)
        = m.find? (fun x => x.1 = k) := by
      apply find?_filter_of_imp
      intro x hx
      simp only [decide_eq_true_eq] at hx
      simp only [ne_eq, decide_not, Bool.not_eq_eq_eq_not, Bool.not_true,
        decide_eq_false_iff_not, decide_eq_true_eq]
      rw [hx]
      exact fun heq => hk heq.symm
    rw [hleft, hright]
    simp [if_neg hk]

theorem lookupKV_foldl_insert (es : List (List Char × Nat))
    (m : List (List Char × Nat)) (k : List Char) :
    lookupKV (es.foldl insertKV m) k = none
      ↔ (∀ e ∈ es, e.1 ≠ k) ∧ lookupKV m k = none := by
  induction es generalizing m with
  | nil => simp
  | cons e tl ih =>
    rw [List.foldl_cons, ih]
    rw [lookupKV_insertKV]
    by_cases he : e.1 = k
    · simp only [if_pos he]
      constructor
      · rintro ⟨-, h⟩; exact absurd h (by simp)
      · rintro ⟨h, -⟩
        exact absurd he (h e (List.mem_cons_self e tl))
    · simp only [if_neg he]
      constructor
      · rintro ⟨h1, h2⟩
        refine ⟨?_, h2⟩
        intro x hx
        rcases List.mem_cons.mp hx with hx | hx
        · subst hx; exact he
        · exact h1 x hx
      · rintro ⟨h1, h2⟩
        exact ⟨fun x hx => h1 x (List.mem_cons_of_mem e hx), h2⟩

/-! ## Collector characterization -/

theorem collectorRun_eq (file : List Char) (es : List (List Char × Nat)) :
    collectorRun file es
      = file ++ encodeEntries
          (es.filter (fun e => ¬('\t' ∈ e.1 ∨ '\n' ∈ e.1))) := by
  induction es generalizing file with
  | nil => simp [collectorRun, encodeEntries_nil]
  | cons e tl ih =>
    by_cases hbad : '\t' ∈ e.1 ∨ '\n' ∈ e.1
    · have hstep : collectorStep file e = file := by simp [collectorStep, hbad]
      simp only [collectorRun, List.foldl_cons, hstep]
      rw [show List.foldl collectorStep file tl = collectorRun file tl from rfl,
        ih, List.filter_cons_of_neg (by simp [hbad])]
    · have hstep : collectorStep file e = file ++ encodeLine e.1 e.2 := by
        simp [collectorStep, hbad]
      simp only [collectorRun, List.foldl_cons, hstep]
      rw [show List.foldl collectorStep (file ++ encodeLine e.1 e.2) tl
          = collectorRun (file ++ encodeLine e.1 e.2) tl from rfl,
        ih, List.filter_cons_of_pos (by simp [hbad]), encodeEntries_cons]
      simp [List.append_assoc]

theorem collectorRun_all_bad {es : List (List Char × Nat)}
    (h : ∀ e ∈ es, '\t' ∈ e.1 ∨ '\n' ∈ e.1) (file : List Char) :
    collectorRun file es = file := by
  rw [collectorRun_eq]
  have : es.filter (fun e => ¬('\t' ∈ e.1 ∨ '\n' ∈ e.1)) = [] := by
    rw [List.filter_eq_nil_iff]
    intro e he
    simp [h e he]
  rw [this, encodeEntries_nil, List.append_nil]

/-! ## Dedup and filterMap interchange -/

theorem dedup_filter {α : Type} [DecidableEq α] (q : α → Bool) (l : List α) :
    (l.filter q).dedup = l.dedup.filter q := by
  induction l with
  | nil => rfl
  | cons a t ih =>
    by_cases hmem : a ∈ t
    · rw [List.dedup_cons_of_mem hmem]
      by_cases hq : q a = true
      · rw [List.filter_cons_of_pos hq,
          List.dedup_cons_of_mem (List.mem_filter.mpr ⟨hmem, hq⟩), ih]
      · rw [List.filter_cons_of_neg (by simp [hq]), ih]
    · rw [List.dedup_cons_of_not_mem hmem]
      by_cases hq : q a = true
      · rw [List.filter_cons_of_pos hq,
          List.dedup_cons_of_not_mem (fun hc => hmem (List.mem_filter.mp hc).1),
          List.filter_cons_of_pos hq, ih]
      · rw [List.filter_cons_of_neg (by simp [hq]),
          List.filter_cons_of_neg (by simp [hq]), ih]

theorem filterMap_filter_ne {α β : Type} [DecidableEq α]
    {g : α → Option β} {p : α} (hg : g p = none) (l : List α) :
    (l.filter (fun q => q ≠ p)).filterMap g = l.filterMap g := by
  induction l with
  | nil => rfl
  | cons a t ih =>
    by_cases ha : a = p
    · subst ha
      rw [List.filter_cons_of_neg (by simp), ih, List.filterMap_cons, hg]
    · rw [List.filter_cons_of_pos (by simp [ha]), List.filterMap_cons,
        List.filterMap_cons, ih]

/-! ## Bit packing -/

theorem foldl_bits_testBit (l : List Nat) :
    ∀ (k acc j : Nat), acc < 2 ^ k →
      ((l.enumFrom k).foldl
          (fun hash iv => if iv.2 = 1 then hash ||| (1 <<< iv.1) else hash)
          acc).testBit j
        = if k ≤ j ∧ j < k + l.length then decide (l.getD (j - k) 0 = 1)
          else acc.testBit j := by
  induction l with
  | nil =>
    intro k acc j hacc
    simp only [List.enumFrom_nil, List.foldl_nil, List.length_nil]
    rw [if_neg (by omega)]
  | cons v t ih =>
    intro k acc j hacc
    rw [List.enumFrom_cons, List.foldl_cons]
    simp only [List.length_cons]
    have hk1 : 2 ^ k < 2 ^ (k + 1) := Nat.pow_lt_pow_succ (by omega)
    by_cases hv : v = 1
    · simp only [hv, eq_self_iff_true, if_true]
      have hacc2 : acc ||| 1 <<< k < 2 ^ (k + 1) := by
        rw [Nat.one_shiftLeft]
        exact Nat.or_lt_two_pow (by omega) hk1
      rw [ih (k + 1) _ j hacc2]
      by_cases h1 : k + 1 ≤ j ∧ j < k + 1 + t.length
      · rw [if_pos h1, if_pos (by omega),
          show j - k = (j - (k + 1)) + 1 from by omega, List.getD_cons_succ]
      · rw [if_neg h1]
        by_cases hj : j = k
        · rw [hj, if_pos (by omega),
            show k - k = 0 from by omega, List.getD_cons_zero,
            Nat.one_shiftLeft, Nat.testBit_lor, Nat.testBit_lt_two_pow hacc,
            Nat.testBit_two_pow]
          simp
        · rw [if_neg (by omega), Nat.one_shiftLeft, Nat.testBit_lor,
            Nat.testBit_two_pow]
          simp [Ne.symm hj]
    · simp only [if_neg hv]
      have hacc2 : acc < 2 ^ (k + 1) := by omega
      rw [ih (k + 1) acc j hacc2]
      by_cases h1 : k + 1 ≤ j ∧ j < k + 1 + t.length
      · rw [if_pos h1, if_pos (by omega),
          show j - k = (j - (k + 1)) + 1 from by omega, List.getD_cons_succ]
      · rw [if_neg h1]
        by_cases hj : j = k
        · rw [hj, if_pos (by omega),
            show k - k = 0 from by omega, List.getD_cons_zero,
            Nat.testBit_lt_two_pow hacc]
          simp [hv]
        · rw [if_neg (by omega)]

theorem bitsToU64_testBit (bits : List Nat) (j : Nat) :
    (bitsToU64 bits).testBit j
      = if j < bits.length then decide (bits.getD j 0 = 1) else false := by
  unfold bitsToU64
  rw [show bits.enum = bits.enumFrom 0 from rfl]
  rw [foldl_bits_testBit bits 0 0 j (by omega)]
  by_cases h : j < bits.length
  · rw [if_pos (by omega), if_pos h, Nat.sub_zero]
  · rw [if_neg (by omega), if_neg h, Nat.zero_testBit]

theorem tab_not_mem_tail (h : Nat) : '\t' ∉ natChars h ++ ['\n'] := by
  intro hmem
  rcases List.mem_append.mp hmem with hmem | hmem
  · obtain ⟨d, hd, heq⟩ := natChars_mem_digit _ hmem
    exact digitChar_ne_tab hd heq.symm
  · simp at hmem

/-! ## Claim C1 -/

/-- Claim C1, crash recovery exactness: for a checkpoint file made of
wellformed entry lines followed by a truncated or malformed final line (one
whose first line is rejected by the loop, which also covers a clean end of
file), `read_result` returns exactly the map of the prefix entries and places
the write cursor at the end of the prefix; the subsequent append of a new
wellformed entry through the collector produces the original wellformed
prefix byte for byte, with the new line after it, so at most the one garbage
line is lost and no valid entry is lost or duplicated. -/
theorem c1_crash_recovery (es : List (List Char × Nat)) (g pNew : List Char)
    (hNew : Nat) (hes : ∀ e ∈ es, wellFormedEntry e)
    (hg : parse_line (read_line g).1 = none)
    (hnew : wellFormedEntry (pNew, hNew)) :
    read_result (encodeEntries es ++ g)
        = (es.foldl insertKV [], (encodeEntries es).length)
      ∧ collectorStep
          ((encodeEntries es ++ g).take (read_result (encodeEntries es ++ g)).2)
          (pNew, hNew)
        = encodeEntries es ++ encodeLine pNew hNew
      ∧ (encodeEntries es ++ encodeLine pNew hNew).take
          (encodeEntries es).length = encodeEntries es := by
  have hscan : scan (encodeEntries es ++ g)
      = (es, (encodeEntries es).length) := by
    rw [scan_encode_append hes g, scan_of_bad_first hg]
    simp
  have hrr : read_result (encodeEntries es ++ g)
      = (es.foldl insertKV [], (encodeEntries es).length) := by
    unfold read_result
    rw [hscan]
  refine ⟨hrr, ?_, List.take_left _ _⟩
  rw [hrr]
  simp only
  rw [List.take_left]
  unfold collectorStep
  rw [if_neg (by simp only [not_or]; exact ⟨hnew.1, hnew.2.1⟩)]

/-- Concrete instance of C1 at the example of the specification: the file
holds one valid line and a truncated line, the recovered cache has exactly
the one entry, the cursor sits after the valid line, and appending a new
entry yields the valid prefix plus the new line. -/
theorem c1_crash_recovery_witness :
    wellFormedEntry ((['a'], 123) : List Char × Nat)
    ∧ (read_result (encodeEntries [(['a'], 123)] ++ ['b', '\t', '4'])
          = ([((['a'], 123) : List Char × Nat)].foldl insertKV [],
              (encodeEntries [(['a'], 123)]).length)
        ∧ collectorStep
            ((encodeEntries [(['a'], 123)] ++ ['b', '\t', '4']).take
              (read_result (encodeEntries [(['a'], 123)]
                ++ ['b', '\t', '4'])).2)
            (['c'], 789)
          = encodeEntries [(['a'], 123)] ++ encodeLine ['c'] 789
        ∧ (encodeEntries [(['a'], 123)] ++ encodeLine ['c'] 789).take
            (encodeEntries [(['a'], 123)]).length
          = encodeEntries [(['a'], 123)]) :=
  ⟨by decide,
    c1_crash_recovery [(['a'], 123)] ['b', '\t', '4'] ['c'] 789
      (by decide) (by decide) (by decide)⟩

/-! ## Claim C2 -/

/-- Claim C2, the load scan algorithm: scanning stops at end of file, stops
when the line read does not end in a newline, stops when the tab-split of
the line does not have exactly two fields, stops when the second field does
not parse as an unsigned 64-bit integer, and otherwise records the entry in
the result map and advances the last known good offset by the length of the
line; a malformed tail yields an ordinary result, never an error. -/
theorem c2_scan_steps (s l r : List Char) (hlr : read_line s = (l, r))
    (hne : s ≠ []) :
    scan ([] : List Char) = ([], 0)
    ∧ (l.getLast? ≠ some '\n' → scan s = ([], 0))
    ∧ (((splitOnTab l).map rustTrim).length ≠ 2 → scan s = ([], 0))
    ∧ (∀ p hs, (splitOnTab l).map rustTrim = [p, hs] → parseU64 hs = none →
        scan s = ([], 0))
    ∧ (∀ p hs h, l.getLast? = some '\n' →
        (splitOnTab l).map rustTrim = [p, hs] → parseU64 hs = some h →
        scan s = ((p, h) :: (scan r).1, l.length + (scan r).2)
        ∧ read_result s
          = (((p, h) :: (scan r).1).foldl insertKV [],
              l.length + (scan r).2)) := by
  have hstop : parse_line l = none → scan s = ([], 0) := by
    intro hcond
    exact scan_stop hne (by rw [hlr]; exact hcond)
  refine ⟨scan_nil, ?_, ?_, ?_, ?_⟩
  · intro hlast
    exact hstop (by simp [parse_line, hlast])
  · intro hlen
    apply hstop
    unfold parse_line
    by_cases hlast : l.getLast? ≠ some '\n'
    · rw [if_pos hlast]
    · rw [if_neg hlast]
      rcases hm : (splitOnTab l).map rustTrim with _ | ⟨a, _ | ⟨b, _ | ⟨c, tl⟩⟩⟩
      · rfl
      · rfl
      · exact absurd (by rw [hm]; rfl) hlen
      · rfl
  · intro p hs hm hpu
    apply hstop
    unfold parse_line
    by_cases hlast : l.getLast? ≠ some '\n'
    · rw [if_pos hlast]
    · rw [if_neg hlast, hm]
      simp [hpu]
  · intro p hs h hlast hm hpu
    have hparse : parse_line l = some (p, h) := by
      unfold parse_line
      rw [if_neg (by simp [hlast]), hm]
      simp [hpu]
    have hp2 : parse_line (read_line s).1 = some (p, h) := by
      rw [hlr]; exact hparse
    have hs2 := scan_cons hne hp2
    rw [hlr] at hs2
    simp only at hs2
    exact ⟨hs2, by unfold read_result; rw [hs2]⟩

/-- Concrete instance of C2 on the single valid line `a TAB 1 NEWLINE`: the
scan records the entry and advances the offset to 4. -/
theorem c2_scan_steps_witness :
    scan ['a', '\t', '1', '\n'] = ([(['a'], 1)], 4) := by
  have h := (c2_scan_steps ['a', '\t', '1', '\n'] ['a', '\t', '1', '\n'] []
    (by decide) (by decide)).2.2.2.2 ['a'] ['1'] 1 (by decide) (by decide)
    (by decide)
  exact h.1.trans (by decide)

/-! ## Claim C3 -/

/-- Claim C3, delimiter safety of append: an entry whose path holds a tab or
newline is skipped and the file is unchanged by it; a whole batch of entries
appends exactly the encoded lines of the entries with delimiter-free paths,
in order, so no other entry is affected; and every line that is written
splits on tabs into exactly two fields. -/
theorem c3_delimiter_safety (file : List Char) (es : List (List Char × Nat))
    (pBad pGood : List Char) (hW : Nat)
    (hbad : '\t' ∈ pBad ∨ '\n' ∈ pBad) (hgood : '\t' ∉ pGood) :
    collectorRun file es
      = file ++ encodeEntries
          (es.filter (fun e => ¬('\t' ∈ e.1 ∨ '\n' ∈ e.1)))
    ∧ collectorStep file (pBad, hW) = file
    ∧ splitOnTab (encodeLine pGood hW) = [pGood, natChars hW ++ ['\n']] := by
  refine ⟨collectorRun_eq file es, by simp [collectorStep, hbad], ?_⟩
  unfold encodeLine
  rw [splitOnTab_append hgood, splitOnTab_no_tab (tab_not_mem_tail hW)]

/-- Concrete instance of C3: a batch with one good and one tab path writes
only the good line, a tab path leaves the file unchanged, and the written
line has exactly two tab-separated fields. -/
theorem c3_delimiter_safety_witness :
    collectorRun [] [(['a'], 1), (['b', '\t'], 2)]
      = [] ++ encodeEntries
          ([(['a'], 1), (['b', '\t'], 2)].filter
            (fun e => ¬('\t' ∈ e.1 ∨ '\n' ∈ e.1)))
    ∧ collectorStep [] (['x', '\t'], 7) = []
    ∧ splitOnTab (encodeLine ['y'] 7) = [['y'], natChars 7 ++ ['\n']] :=
  c3_delimiter_safety [] [(['a'], 1), (['b', '\t'], 2)] ['x', '\t'] ['y'] 7
    (by decide) (by decide)

/-! ## Second-run analysis for the pipeline -/

/-- Core facts about a second run over the output of a first run: the first
run leaves a file that the loader accepts in full (the cursor for the second
run sits at the very end), and every work item of the second run on which the
hash engine succeeds has a delimiter in its path (so the collector of the
second run writes nothing). -/
theorem second_run_facts (hashFn : List Char → Option Nat)
    (cands : List (List Char)) (file : List Char)
    (htrim : ∀ p ∈ cands, rustTrim p = p)
    (hbound : ∀ p h, hashFn p = some h → h < 2 ^ 64) :
    (pipelineRun hashFn cands file).take
        (read_result (pipelineRun hashFn cands file)).2
      = pipelineRun hashFn cands file
    ∧ (∀ p, p ∈ workOf cands (pipelineRun hashFn cands file) →
        (hashFn p).isSome = true → ('\t' ∈ p ∨ '\n' ∈ p)) := by
  set good1 := (pipelineResults hashFn cands file).filter
    (fun e => ¬('\t' ∈ e.1 ∨ '\n' ∈ e.1)) with hgood1
  have hgoodwf : ∀ e ∈ good1, wellFormedEntry e := by
    intro e he
    rw [hgood1] at he
    obtain ⟨hres, hdelim⟩ := List.mem_filter.mp he
    simp only [decide_not, Bool.not_eq_eq_eq_not, Bool.not_true,
      decide_eq_false_iff_not, not_or] at hdelim
    rw [decide_eq_true_eq] at hdelim
    obtain ⟨p, hpw, hpe⟩ := List.mem_filterMap.mp hres
    have hpc : p ∈ cands :=
      (List.mem_filter.mp (List.mem_dedup.mp hpw)).1
    rcases hfp : hashFn p with _ | h
    · rw [hfp] at hpe; simp at hpe
    · rw [hfp] at hpe
      have hpe2 : (p, h) = e := by simpa using hpe
      subst hpe2
      exact ⟨hdelim.1, hdelim.2, htrim p hpc, hbound p h hfp⟩
  have hfile1eq : pipelineRun hashFn cands file
      = file.take (scan file).2 ++ encodeEntries good1 := by
    unfold pipelineRun
    rw [collectorRun_eq]
    rfl
  have hscanE : scan (encodeEntries good1)
      = (good1, (encodeEntries good1).length) := by
    have h := scan_encode_append hgoodwf []
    rw [List.append_nil] at h
    rw [h, scan_nil]
    simp
  have hscan1 : scan (pipelineRun hashFn cands file)
      = ((scan file).1 ++ good1,
          (scan file).2 + (encodeEntries good1).length) := by
    rw [hfile1eq, scan_take_append file (encodeEntries good1), hscanE]
  have hlen1 : (pipelineRun hashFn cands file).length
      = (scan file).2 + (encodeEntries good1).length := by
    rw [hfile1eq, List.length_append, List.length_take]
    have := scan_snd_le file
    omega
  constructor
  · show (pipelineRun hashFn cands file).take
        (scan (pipelineRun hashFn cands file)).2
      = pipelineRun hashFn cands file
    rw [hscan1]
    simp only
    rw [← hlen1]
    exact List.take_length _
  · intro p hpw2 hpsome
    by_contra hdelim
    rw [not_or] at hdelim
    obtain ⟨hpc, hlk2⟩ :=
      List.mem_filter.mp (List.mem_dedup.mp hpw2)
    simp only [decide_eq_true_eq] at hlk2
    have hkeys : ∀ x ∈ (scan file).1 ++ good1, x.1 ≠ p := by
      have hr1 : (read_result (pipelineRun hashFn cands file)).1
          = ((scan file).1 ++ good1).foldl insertKV [] := by
        show (scan (pipelineRun hashFn cands file)).1.foldl insertKV [] = _
        rw [hscan1]
      rw [hr1] at hlk2
      exact ((lookupKV_foldl_insert _ [] p).mp hlk2).1
    have hlk1 : lookupKV (read_result file).1 p = none := by
      show lookupKV ((scan file).1.foldl insertKV []) p = none
      exact (lookupKV_foldl_insert _ [] p).mpr
        ⟨fun x hx => hkeys x (List.mem_append.mpr (Or.inl hx)), rfl⟩
    have hpw1 : p ∈ workOf cands file :=
      List.mem_dedup.mpr (List.mem_filter.mpr ⟨hpc, by simp [hlk1]⟩)
    obtain ⟨h, hfp⟩ := Option.isSome_iff_exists.mp hpsome
    have hres1 : (p, h) ∈ pipelineResults hashFn cands file :=
      List.mem_filterMap.mpr ⟨p, hpw1, by rw [hfp]; rfl⟩
    have hgoodmem : (p, h) ∈ good1 := by
      rw [hgood1]
      refine List.mem_filter.mpr ⟨hres1, ?_⟩
      simp [hdelim.1, hdelim.2]
    exact hkeys (p, h) (List.mem_append.mpr (Or.inr hgoodmem)) rfl

/-! ## Claim C8 -/

/-- Claim C8 counterexample: with the single candidate path `a TAB b` (a path
holding a tab character, as a line of the input list can produce) and a hash
engine that succeeds on it, the path is hashed by the first run, the writer
skips it, so it is hashed again by the second run: a path is hashed twice
across the two runs, refuting the claim as stated. -/
theorem c8_idempotence_cex :
    ['a', '\t', 'b'] ∈ hashedPaths (fun _ => some 5) [['a', '\t', 'b']] []
    ∧ ['a', '\t', 'b'] ∈ hashedPaths (fun _ => some 5) [['a', '\t', 'b']]
        (pipelineRun (fun _ => some 5) [['a', '\t', 'b']] []) := by
  decide

/-- Claim C8 as amended: running the pipeline twice leaves the checkpoint
file of the first run unchanged (hence the same final set of cache entries),
and no path that can yield a cache entry (delimiter-free path whose hashing
succeeds) is hashed twice across the two runs; moreover duplicate candidate
paths collapse to a single unit of work.  Candidates are trimmed (as
`read_input_list` produces them) and hashes fit in 64 bits. -/
theorem c8_idempotence_amended (hashFn : List Char → Option Nat)
    (cands : List (List Char)) (file : List Char)
    (htrim : ∀ p ∈ cands, rustTrim p = p)
    (hbound : ∀ p h, hashFn p = some h → h < 2 ^ 64) :
    pipelineRun hashFn cands (pipelineRun hashFn cands file)
      = pipelineRun hashFn cands file
    ∧ (∀ p ∈ hashedPaths hashFn cands (pipelineRun hashFn cands file),
        ¬(p ∈ hashedPaths hashFn cands file ∧ '\t' ∉ p ∧ '\n' ∉ p))
    ∧ (workOf cands file).Nodup := by
  obtain ⟨htake, hbad⟩ := second_run_facts hashFn cands file htrim hbound
  refine ⟨?_, ?_, List.nodup_dedup _⟩
  · show collectorRun
      ((pipelineRun hashFn cands file).take
        (read_result (pipelineRun hashFn cands file)).2)
      (pipelineResults hashFn cands (pipelineRun hashFn cands file))
      = pipelineRun hashFn cands file
    rw [htake]
    apply collectorRun_all_bad
    intro e he
    obtain ⟨p, hpw, hpe⟩ := List.mem_filterMap.mp he
    rcases hfp : hashFn p with _ | h
    · rw [hfp] at hpe; simp at hpe
    · rw [hfp] at hpe
      have hpe2 : (p, h) = e := by simpa using hpe
      rw [← hpe2]
      exact hbad p hpw (by rw [hfp]; rfl)
  · intro p hp
    rintro ⟨-, ht, hn⟩
    obtain ⟨hpw2, hpsome⟩ := List.mem_filter.mp hp
    rcases hbad p hpw2 hpsome with hc | hc
    · exact ht hc
    · exact hn hc

/-- Concrete instance of the amended C8: one good candidate, empty initial
file; the second run changes nothing. -/
theorem c8_idempotence_amended_witness :
    pipelineRun (fun _ => some 5) [['a']]
        (pipelineRun (fun _ => some 5) [['a']] [])
      = pipelineRun (fun _ => some 5) [['a']] []
    ∧ (∀ p ∈ hashedPaths (fun _ => some 5) [['a']]
          (pipelineRun (fun _ => some 5) [['a']] []),
        ¬(p ∈ hashedPaths (fun _ => some 5) [['a']] []
          ∧ '\t' ∉ p ∧ '\n' ∉ p))
    ∧ (workOf [['a']] []).Nodup :=
  c8_idempotence_amended (fun _ => some 5) [['a']] []
    (by decide) (fun p h hp => by
      have : (5 : Nat) = h := by simpa using hp
      omega)

/-! ## Claim C9 -/

/-- Claim C9, per-item error containment: a candidate path that is not cached
and whose hash computation fails is reported among the per-item errors
(attributed to that path), contributes no entry to the results sent to the
writer, and its presence in the candidate list has no effect at all on the
checkpoint file the run produces, so the batch is not aborted and no other
item is affected. -/
theorem c9_error_containment (hashFn : List Char → Option Nat)
    (cands : List (List Char)) (file : List Char) (p : List Char)
    (hfail : hashFn p = none) (hmem : p ∈ cands)
    (hnc : lookupKV (read_result file).1 p = none) :
    p ∈ pipelineErrors hashFn cands file
    ∧ (∀ e ∈ pipelineResults hashFn cands file, e.1 ≠ p)
    ∧ pipelineRun hashFn cands file
      = pipelineRun hashFn (cands.filter (fun q => q ≠ p)) file := by
  have hwork : p ∈ workOf cands file :=
    List.mem_dedup.mpr (List.mem_filter.mpr ⟨hmem, by simp [hnc]⟩)
  refine ⟨List.mem_filter.mpr ⟨hwork, by simp [hfail]⟩, ?_, ?_⟩
  · intro e he
    obtain ⟨a, haw, hae⟩ := List.mem_filterMap.mp he
    rcases hfa : hashFn a with _ | h
    · rw [hfa] at hae; simp at hae
    · rw [hfa] at hae
      have : (a, h) = e := by simpa using hae
      rw [← this]
      intro hap
      rw [show (a, h).1 = a from rfl] at hap
      rw [hap, hfail] at hfa
      exact Option.noConfusion hfa
  · have hworkeq : workOf (cands.filter (fun q => q ≠ p)) file
        = (workOf cands file).filter (fun q => q ≠ p) := by
      unfold workOf
      rw [List.filter_comm, dedup_filter]
    have hres : pipelineResults hashFn (cands.filter (fun q => q ≠ p)) file
        = pipelineResults hashFn cands file := by
      unfold pipelineResults
      rw [hworkeq]
      exact filterMap_filter_ne (by simp [hfail]) _
    unfold pipelineRun
    rw [hres]

/-- Concrete instance of C9: the failing path `a` is reported, produces no
entry, and removing it from the candidates leaves the output unchanged. -/
theorem c9_error_containment_witness :
    ['a'] ∈ pipelineErrors
        (fun q => if q = ['a'] then none else some 1) [['a'], ['b']] []
    ∧ (∀ e ∈ pipelineResults
          (fun q => if q = ['a'] then none else some 1) [['a'], ['b']] [],
        e.1 ≠ ['a'])
    ∧ pipelineRun
          (fun q => if q = ['a'] then none else some 1) [['a'], ['b']] []
      = pipelineRun
          (fun q => if q = ['a'] then none else some 1)
          ([['a'], ['b']].filter (fun q => q ≠ ['a'])) [] :=
  c9_error_containment (fun q => if q = ['a'] then none else some 1)
    [['a'], ['b']] [] ['a'] (by decide) (by decide) (by decide)

/-! ## Claim C10 -/

/-- Claim C10, implicit UTF-8 requirement of the writer: every entry of a
batch that the collector completes without aborting has a valid UTF-8 path,
and one entry whose path bytes are not valid UTF-8 (the single byte 0xFF)
makes `to_str().unwrap()` panic, aborting the entire run rather than
skipping only that entry: the following good entry is never written. -/
theorem c10_utf8_paths :
    (∀ (es : List (List Nat × Nat)) (f f2 : List Nat),
        collectorRunB f es = some f2 → ∀ e ∈ es, validUtf8 e.1 = true)
    ∧ collectorRunB [] [([0xFF], 5), ([0x61], 7)] = none := by
  constructor
  · intro es
    induction es with
    | nil =>
      intro f f2 _ e he
      simp at he
    | cons a tl ih =>
      intro f f2 hrun e he
      unfold collectorRunB at hrun
      rcases hstep : collectorStepB f a with _ | f3 <;> rw [hstep] at hrun
      · simp at hrun
      · simp only at hrun
        rcases List.mem_cons.mp he with he | he
        · subst he
          by_contra hval
          have hnone : collectorStepB f e = none := by
            unfold collectorStepB
            rw [if_pos hval]
          rw [hnone] at hstep
          exact Option.noConfusion hstep
        · exact ih f3 f2 hrun e he
  · decide

/-- Concrete instance of C10: a batch the collector completes has only valid
UTF-8 paths. -/
theorem c10_utf8_paths_witness : validUtf8 [0x61] = true :=
  c10_utf8_paths.1 [([0x61], 7)] [] [0x61, 9, 55, 10] (by decide)
    ([0x61], 7) (by decide)

/-! ## Claim C7 -/

/-- Claim C7, the DCT basis: the 32x32 matrix computed once at startup has
entry `1/sqrt N` in row 0 and `sqrt (2/N) * cos (pi/(2 N) * y * (2 x + 1))`
in row `y > 0` (with `N = 32`), and the transform applied to the pixel matrix
is `DCT * pixels * transpose DCT`. -/
theorem c7_dct_basis (P : Matrix (Fin 32) (Fin 32) ℝ) (y x : Fin 32) :
    dct_transform P = get_dct_matrix * P * get_dct_matrix.transpose
    ∧ get_dct_matrix y x
      = if (y : ℕ) = 0 then 1 / Real.sqrt 32
        else Real.sqrt (2 / 32)
          * Real.cos (Real.pi / (2 * 32) * ((y : ℕ) : ℝ)
              * (2 * ((x : ℕ) : ℝ) + 1)) := by
  refine ⟨rfl, ?_⟩
  unfold get_dct_matrix
  rw [Matrix.of_apply]
  by_cases hy : (y : ℕ) = 0
  · rw [if_pos hy, if_pos hy]
  · rw [if_neg hy, if_neg hy]
    have harg : Real.pi / 2 / 32 * ((y : ℕ) : ℝ) * (((2 * (x : ℕ) + 1 : ℕ)) : ℝ)
        = Real.pi / (2 * 32) * ((y : ℕ) : ℝ) * (2 * ((x : ℕ) : ℝ) + 1) := by
      push_cast
      ring
    rw [harg]

/-! ## Claim C6 -/

/-- Claim C6, hash determinism: the embedded hash computation is a pure
function of the decoded 32x32 pixel matrix; two runs on equal inputs yield
equal 64-bit outputs. -/
theorem c6_hash_determinism (p1 p2 : Matrix (Fin 32) (Fin 32) ℝ)
    (h : p1 = p2) : phashOfPixels p1 = phashOfPixels p2 :=
  congrArg phashOfPixels h

/-- Concrete instance of C6 at the all-zero pixel matrix. -/
theorem c6_hash_determinism_witness : phashOfPixels 0 = phashOfPixels 0 :=
  c6_hash_determinism 0 0 rfl

/-! ## Claim C4 -/

/-- Claim C4, hash bitization: coefficient `i = 8 x + y` of the flattened
8x8 block (column-major nalgebra iteration order) is the DCT entry at row
`y + 1`, column `x + 1` (the block starts at row 1, column 1), and bit `i`
of the hash is set exactly when that coefficient is at least the median,
computed as the mean of elements 31 and 32 of the ascending sort of the 64
coefficients. -/
theorem c4_hash_bitization (d : Matrix (Fin 32) (Fin 32) ℚ) (x y : Fin 8) :
    (flattenBlock d).getD (8 * (x : ℕ) + (y : ℕ)) 0
      = d (Fin.castLE (by omega) y.succ) (Fin.castLE (by omega) x.succ)
    ∧ (phashCore d).testBit (8 * (x : ℕ) + (y : ℕ))
      = decide (d (Fin.castLE (by omega) y.succ) (Fin.castLE (by omega) x.succ)
          ≥ ((sortedVals (flattenBlock d)).getD 31 0
              + (sortedVals (flattenBlock d)).getD 32 0) / 2) := by
  have hx := x.isLt
  have hy := y.isLt
  have hlen : (flattenBlock d).length = 64 := rfl
  have hbitsdef : phashBits d = (flattenBlock d).map
      (fun v => if v ≥ ((sortedVals (flattenBlock d)).getD 31 0
        + (sortedVals (flattenBlock d)).getD 32 0) / 2 then 1 else 0) := rfl
  have hlenb : (phashBits d).length = 64 := by
    rw [hbitsdef, List.length_map, hlen]
  have hcoef : (flattenBlock d).getD (8 * (x : ℕ) + (y : ℕ)) 0
      = d (Fin.castLE (by omega) y.succ) (Fin.castLE (by omega) x.succ) := by
    fin_cases x <;> fin_cases y <;> rfl
  refine ⟨hcoef, ?_⟩
  rw [← hcoef]
  rw [show phashCore d = bitsToU64 (phashBits d) from rfl, bitsToU64_testBit,
    if_pos (show 8 * (x : ℕ) + (y : ℕ) < (phashBits d).length by
      rw [hlenb]; omega)]
  obtain ⟨v, hv⟩ : ∃ v, (flattenBlock d)[(8 * (x : ℕ) + (y : ℕ))]? = some v :=
    ⟨_, List.getElem?_eq_getElem (by rw [hlen]; omega)⟩
  have hvd : (flattenBlock d).getD (8 * (x : ℕ) + (y : ℕ)) 0 = v := by
    rw [List.getD_eq_getElem?_getD, hv]
    rfl
  rw [List.getD_eq_getElem?_getD, hbitsdef, List.getElem?_map, hv, hvd]
  by_cases hge : v ≥ ((sortedVals (flattenBlock d)).getD 31 0
      + (sortedVals (flattenBlock d)).getD 32 0) / 2
  · simp [hge]
  · simp [hge]

end PhashHasher
